import Mathlib

set_option linter.unusedSectionVars false

/-!
Verification of the consistent-hash-ring core of `practical-system-design`
(`src/python/consistent_hash_lab/`): a shallow embedding in Lean 4 of
`node.py` and `ring.py`, followed by theorems settling the specified
behaviours (lookup tie-breaks, collision policy, error handling, ring
invariants, movement analysis).

Python conventions are embedded explicitly:
* a `dict` is an insertion-ordered association list (`pySet` overwrites in
  place, `pyDel` removes the entry);
* an exception is an explicit `PyErr` value; mutating methods return the
  post-state together with `Except PyErr α`, so a raised exception still
  reports the (possibly partially mutated) state, as in Python;
* comparing a tuple `(h, x)` against a ring entry `(h', node)` first
  compares the integers and, on equality, falls through to comparing `x`
  (either `None` or a `Node`) with a `Node` — a `TypeError` in Python 3,
  since `Node` defines no ordering.
-/

/-- Exceptions raised by the embedded code: `ValueError(msg)` or the
`TypeError` produced by ordering `None`/`Node` against a `Node`. -/
inductive PyErr where
  | valueError : String → PyErr
  | typeError : PyErr
deriving DecidableEq, Repr

/-- A node of the ring (`node.py`): `node_id` and replica count.  The
`weight` attribute is carried by the Python class but read by none of the
embedded code, so it is omitted.  `Node.__eq__` compares `node_id` only;
everywhere Python compares nodes the embedding says so explicitly. -/
structure Node where
  node_id : String
  replicas : Nat
deriving DecidableEq, Repr

instance : Inhabited Node := ⟨⟨"", 0⟩⟩

/-- Python `dict` lookup `d.get(k)` / `d[k]`: value of the entry with key
`k`, if present. -/
def pyGet {α β : Type} [BEq α] (d : List (α × β)) (k : α) : Option β :=
  (d.find? (fun p => p.1 == k)).map (·.2)

/-- Python `k in d`. -/
def pyContains {α β : Type} [BEq α] (d : List (α × β)) (k : α) : Bool :=
  (d.find? (fun p => p.1 == k)).isSome

/-- Python `d[k] = v`: overwrite in place if the key is present, else
append (dicts preserve insertion order). -/
def pySet {α β : Type} [BEq α] : List (α × β) → α → β → List (α × β)
  | [], k, v => [(k, v)]
  | p :: rest, k, v =>
    if p.1 == k then (k, v) :: rest else p :: pySet rest k v

/-- Python `del d[k]`: drop the entry with key `k`. -/
def pyDel {α β : Type} [BEq α] (d : List (α × β)) (k : α) : List (α × β) :=
  d.eraseP (fun p => p.1 == k)

/-- Python `str.encode()`: the UTF-8 bytes of a string, as naturals. -/
def pyEncode (s : String) : List Nat :=
  (s.data.flatMap String.utf8EncodeChar).map (fun b => b.toNat)

/-- One step of the FNV-1a accumulator: `hash ^= byte; hash *= 16777619;
hash &= 0xFFFFFFFF` (the mask equals reduction mod 2^32 on naturals). -/
def fnv1aStep (hash_value byte : Nat) : Nat :=
  ((hash_value ^^^ byte) * 16777619) % 4294967296

/-- The FNV-1a loop of `Node._hash_string` (`node.py` lines 66-73). -/
def nodeFnv1a (bytes : List Nat) : Nat :=
  bytes.foldl fnv1aStep 2166136261

/-- The FNV-1a loop of `ConsistentHashRing._hash_key` (`ring.py` lines
179-186); the source duplicates the five lines of `node.py`. -/
def ringFnv1a (bytes : List Nat) : Nat :=
  bytes.foldl fnv1aStep 2166136261

/-- Right rotation on 32-bit words. -/
def rotr32 (x n : Nat) : Nat :=
  ((x >>> n) ||| (x <<< (32 - n))) % 4294967296

/-- SHA-256 message-schedule sigma-0. -/
def sigma0 (x : Nat) : Nat := (rotr32 x 7) ^^^ (rotr32 x 18) ^^^ (x >>> 3)

/-- SHA-256 message-schedule sigma-1. -/
def sigma1 (x : Nat) : Nat := (rotr32 x 17) ^^^ (rotr32 x 19) ^^^ (x >>> 10)

/-- SHA-256 round function Sigma-0. -/
def bigSigma0 (x : Nat) : Nat := (rotr32 x 2) ^^^ (rotr32 x 13) ^^^ (rotr32 x 22)

/-- SHA-256 round function Sigma-1. -/
def bigSigma1 (x : Nat) : Nat := (rotr32 x 6) ^^^ (rotr32 x 11) ^^^ (rotr32 x 25)

/-- The 64 SHA-256 round constants of FIPS 180-4, in decimal. -/
def sha256K : List Nat :=
  [1116352408, 1899447441, 3049323471, 3921009573, 961987163,
   1508970993, 2453635748, 2870763221, 3624381080, 310598401,
   607225278, 1426881987, 1925078388, 2162078206, 2614888103,
   3248222580, 3835390401, 4022224774, 264347078, 604807628,
   770255983, 1249150122, 1555081692, 1996064986, 2554220882,
   2821834349, 2952996808, 3210313671, 3336571891, 3584528711,
   113926993, 338241895, 666307205, 773529912, 1294757372,
   1396182291, 1695183700, 1986661051, 2177026350, 2456956037,
   2730485921, 2820302411, 3259730800, 3345764771, 3516065817,
   3600352804, 4094571909, 275423344, 430227734, 506948616,
   659060556, 883997877, 958139571, 1322822218, 1537002063,
   1747873779, 1955562222, 2024104815, 2227730452, 2361852424,
   2428436474, 2756734187, 3204031479, 3329325298]

/-- Pack big-endian groups of four bytes into 32-bit words. -/
def bytesToWords : List Nat → List Nat
  | b0 :: b1 :: b2 :: b3 :: rest =>
    (((b0 * 256 + b1) * 256 + b2) * 256 + b3) :: bytesToWords rest
  | _ => []

/-- Extend the 16 block words to the 64-entry SHA-256 message schedule. -/
def sha256Extend (w : Array Nat) : Array Nat :=
  (List.range 48).foldl (fun w _ =>
    let i := w.size
    w.push ((sigma1 (w.getD (i - 2) 0) + w.getD (i - 7) 0 +
             sigma0 (w.getD (i - 15) 0) + w.getD (i - 16) 0) % 4294967296)) w

/-- Working state of the SHA-256 compression, registers a through h. -/
structure Sha256State where
  a : Nat
  b : Nat
  c : Nat
  d : Nat
  e : Nat
  f : Nat
  g : Nat
  h : Nat
deriving Repr

/-- One SHA-256 round for round constant k and schedule word w. -/
def sha256Round (st : Sha256State) (kw : Nat × Nat) : Sha256State :=
  let ch := (st.e &&& st.f) ^^^ ((st.e ^^^ 4294967295) &&& st.g)
  let maj := (st.a &&& st.b) ^^^ (st.a &&& st.c) ^^^ (st.b &&& st.c)
  let t1 := (st.h + bigSigma1 st.e + ch + kw.1 + kw.2) % 4294967296
  let t2 := (bigSigma0 st.a + maj) % 4294967296
  ⟨(t1 + t2) % 4294967296, st.a, st.b, st.c,
   (st.d + t1) % 4294967296, st.e, st.f, st.g⟩

/-- Compress one 64-byte block into the running hash values. -/
def sha256Compress (hv : List Nat) (block : List Nat) : List Nat :=
  let w := sha256Extend (Array.mk (bytesToWords block))
  let init : Sha256State :=
    ⟨hv.getD 0 0, hv.getD 1 0, hv.getD 2 0, hv.getD 3 0,
     hv.getD 4 0, hv.getD 5 0, hv.getD 6 0, hv.getD 7 0⟩
  let st := (sha256K.zip w.toList).foldl sha256Round init
  [(hv.getD 0 0 + st.a) % 4294967296, (hv.getD 1 0 + st.b) % 4294967296,
   (hv.getD 2 0 + st.c) % 4294967296, (hv.getD 3 0 + st.d) % 4294967296,
   (hv.getD 4 0 + st.e) % 4294967296, (hv.getD 5 0 + st.f) % 4294967296,
   (hv.getD 6 0 + st.g) % 4294967296, (hv.getD 7 0 + st.h) % 4294967296]

/-- Process the padded message 64 bytes at a time. -/
def sha256Process (hv : List Nat) : List Nat → List Nat
  | [] => hv
  | b :: rest =>
    sha256Process (sha256Compress hv ((b :: rest).take 64)) ((b :: rest).drop 64)
termination_by bytes => bytes.length
decreasing_by simp; omega

/-- The eight big-endian bytes of a 64-bit length field. -/
def beBytes8 (n : Nat) : List Nat :=
  [(n >>> 56) % 256, (n >>> 48) % 256, (n >>> 40) % 256, (n >>> 32) % 256,
   (n >>> 24) % 256, (n >>> 16) % 256, (n >>> 8) % 256, n % 256]

/-- SHA-256 padding: a 0x80 byte, zeros to 56 mod 64, then the bit length. -/
def sha256Pad (msg : List Nat) : List Nat :=
  let z := (119 - msg.length % 64) % 64
  msg ++ [128] ++ List.replicate z 0 ++ beBytes8 (8 * msg.length)

/-- Model of Python's `hashlib.sha256(...)` followed by
`int(hexdigest(), 16)`: the 256-bit digest read as a big-endian integer.
`node.py` and `ring.py` both call this same library function. -/
def sha256Int (bytes : List Nat) : Nat :=
  let hv := sha256Process
    [1779033703, 3144134277, 1013904242, 2773480762,
     1359893119, 2600822924, 528734635, 1541459225] (sha256Pad bytes)
  hv.foldl (fun acc w => acc * 4294967296 + w) 0

/-- The body of `Node._hash_string` (`node.py` lines 53-75): dispatch on
the hash-function name, raising `ValueError` on an unsupported name. -/
def Node.hash_string (value : String) (hash_function : String) : Except PyErr Nat :=
  if hash_function = "sha256" then .ok (sha256Int (pyEncode value))
  else if hash_function = "fnv1a" then .ok (nodeFnv1a (pyEncode value))
  else .error (.valueError ("Unsupported hash function: " ++ hash_function))

/-- A Python `for` loop appending one computed value per element, where a
raised exception aborts the loop and discards the partial list. -/
def exceptMap {ε α β : Type} (g : α → Except ε β) : List α → Except ε (List β)
  | [] => .ok []
  | a :: rest =>
    match g a with
    | .error e => .error e
    | .ok b =>
      match exceptMap g rest with
      | .error e => .error e
      | .ok bs => .ok (b :: bs)

/-- `Node.get_hash_values` (`node.py` lines 33-51): hash
`f"{node_id}-{replica}"` for each replica index; a raised `ValueError`
propagates out of the loop. -/
def Node.get_hash_values (self : Node) (hash_function : String) : Except PyErr (List Nat) :=
  exceptMap (fun replica =>
    Node.hash_string (self.node_id ++ "-" ++ toString replica) hash_function)
    (List.range self.replicas)

/-- State of `ConsistentHashRing` (`ring.py` lines 26-36): the sorted
`(hash_value, node)` list, the id-to-node dict, and the hash-to-node dict. -/
structure ConsistentHashRing where
  hash_function : String
  ring : List (Nat × Node)
  nodes : List (String × Node)
  hash_to_node : List (Nat × Node)
deriving DecidableEq, Repr

namespace ConsistentHashRing

/-- `ConsistentHashRing.__init__`: all three containers start empty. -/
def init (hash_function : String) : ConsistentHashRing :=
  ⟨hash_function, [], [], []⟩

/-- `ConsistentHashRing._hash_key` (`ring.py` lines 167-188). -/
def hash_key (self : ConsistentHashRing) (key : String) : Except PyErr Nat :=
  if self.hash_function = "sha256" then .ok (sha256Int (pyEncode key))
  else if self.hash_function = "fnv1a" then .ok (ringFnv1a (pyEncode key))
  else .error (.valueError ("Unsupported hash function: " ++ self.hash_function))

end ConsistentHashRing

/-- Python 3 comparison of a probe tuple `(key_hash, x)` with a ring entry
`(hash_value, node)`: decided by the integers when they differ.  On equal
integers Python tests `x == node` first (tuple comparison skips equal
components): when `x` is the same node — `Node.__eq__` compares `node_id`
only — the tuples are equal and `<` returns `False`; otherwise Python
orders `x` (a `None` in `bisect_right`, a different `Node` in `insort`)
against the entry's `Node`, and neither admits an order, so the comparison
raises `TypeError`. -/
def pyTupleLt (key_hash : Nat) (probe : Option Node) (entry : Nat × Node) : Except PyErr Bool :=
  if key_hash < entry.1 then .ok true
  else if entry.1 < key_hash then .ok false
  else
    match probe with
    | none => .error .typeError
    | some n => if n.node_id = entry.2.node_id then .ok false else .error .typeError

/-- The loop of `bisect.bisect_right`: while `lo < hi`, probe
`mid = (lo+hi)//2` and narrow.  The fuel argument bounds the iteration
count of the Python `while`; `hi - lo` strictly decreases, so any fuel of
at least `hi - lo` yields the loop's result. -/
def bisect_loop (a : List (Nat × Node)) (key_hash : Nat) (probe : Option Node) :
    Nat → Nat → Nat → Except PyErr Nat
  | lo, hi, fuel + 1 =>
    if lo < hi then
      let mid := (lo + hi) / 2
      match pyTupleLt key_hash probe (a.getD mid (0, default)) with
      | .error e => .error e
      | .ok true => bisect_loop a key_hash probe lo mid fuel
      | .ok false => bisect_loop a key_hash probe (mid + 1) hi fuel
    else .ok lo
  | lo, _, 0 => .ok lo

/-- `bisect.bisect_right(a, (key_hash, _))` over the whole list. -/
def bisect_right (a : List (Nat × Node)) (key_hash : Nat) (probe : Option Node) :
    Except PyErr Nat :=
  bisect_loop a key_hash probe 0 a.length a.length

/-- `bisect.insort(ring, (hash_value, node))`: find the insertion point
with `bisect_right`, probing with the tuple `(hash_value, node)` itself —
a position collision against a *different* node raises `TypeError`, while
a collision against an entry holding the same node compares equal and the
search continues past it — and insert there. -/
def insort (ring : List (Nat × Node)) (hash_value : Nat) (node : Node) :
    Except PyErr (List (Nat × Node)) :=
  match bisect_right ring hash_value (some node) with
  | .error e => .error e
  | .ok i => .ok (ring.take i ++ (hash_value, node) :: ring.drop i)

namespace ConsistentHashRing

/-- The per-hash loop of `add_node` (`ring.py` lines 54-57): write
`hash_to_node[hash_value] = node`, then `bisect.insort`.  A `TypeError`
raised by `insort` escapes with the dict already updated. -/
def insert_hashes (self : ConsistentHashRing) (node : Node) :
    List Nat → ConsistentHashRing × Except PyErr Unit
  | [] => (self, .ok ())
  | hash_value :: rest =>
    let self1 := { self with hash_to_node := pySet self.hash_to_node hash_value node }
    match insort self1.ring hash_value node with
    | .error e => (self1, .error e)
    | .ok l => insert_hashes { self1 with ring := l } node rest

/-- `ConsistentHashRing.add_node` (`ring.py` lines 38-57). -/
def add_node (self : ConsistentHashRing) (node : Node) :
    ConsistentHashRing × Except PyErr Unit :=
  if pyContains self.nodes node.node_id then
    (self, .error (.valueError ("Node " ++ node.node_id ++ " already exists in the ring")))
  else
    let self1 := { self with nodes := pySet self.nodes node.node_id node }
    match node.get_hash_values self1.hash_function with
    | .error e => (self1, .error e)
    | .ok hash_values => insert_hashes self1 node hash_values

/-- The per-hash loop of `remove_node` (`ring.py` lines 76-83): guarded by
`hash_value in hash_to_node`; `ring.remove((hash_value, node))` drops the
first tuple equal to the probe (tuple equality uses `Node.__eq__`, which
compares `node_id` only), and its `ValueError` on a missing element is
swallowed by the `try/except`. -/
def remove_hashes (self : ConsistentHashRing) (node : Node) :
    List Nat → ConsistentHashRing
  | [] => self
  | hash_value :: rest =>
    if pyContains self.hash_to_node hash_value then
      let self1 := { self with hash_to_node := pyDel self.hash_to_node hash_value }
      let self2 := { self1 with
        ring := self1.ring.eraseP (fun e => e.1 == hash_value && e.2.node_id == node.node_id) }
      remove_hashes self2 node rest
    else
      remove_hashes self node rest

/-- `ConsistentHashRing.remove_node` (`ring.py` lines 59-87). -/
def remove_node (self : ConsistentHashRing) (node_id : String) :
    ConsistentHashRing × Except PyErr (Option Node) :=
  match pyGet self.nodes node_id with
  | none => (self, .ok none)
  | some node =>
    match node.get_hash_values self.hash_function with
    | .error e => (self, .error e)
    | .ok hash_values =>
      let self1 := remove_hashes self node hash_values
      ({ self1 with nodes := pyDel self1.nodes node_id }, .ok (some node))

/-- `ConsistentHashRing.get_node_for_key` (`ring.py` lines 89-111):
empty ring yields `None`; otherwise hash the key, `bisect_right` with the
probe `(key_hash, None)`, wrap an off-the-end index to 0, and return the
node at the resulting index. -/
def get_node_for_key (self : ConsistentHashRing) (key : String) :
    Except PyErr (Option Node) :=
  if self.ring.isEmpty then .ok none
  else
    match self.hash_key key with
    | .error e => .error e
    | .ok key_hash =>
      match bisect_right self.ring key_hash none with
      | .error e => .error e
      | .ok i =>
        let index := if self.ring.length ≤ i then 0 else i
        .ok (some (self.ring.getD index (0, default)).2)

/-- The `defaultdict(list)` append `distribution[node.node_id].append(key)`
of `get_key_distribution`. -/
def appendKey (d : List (String × List String)) (node_id : String) (key : String) :
    List (String × List String) :=
  if pyContains d node_id then
    d.map (fun p => if p.1 == node_id then (p.1, p.2 ++ [key]) else p)
  else
    d ++ [(node_id, [key])]

/-- `ConsistentHashRing.get_key_distribution` (`ring.py` lines 113-130). -/
def get_key_distribution (self : ConsistentHashRing) (keys : List String) :
    Except PyErr (List (String × List String)) :=
  keys.foldlM (fun d key =>
    match self.get_node_for_key key with
    | .error e => .error e
    | .ok none => .ok d
    | .ok (some node) => .ok (appendKey d node.node_id key)) []

end ConsistentHashRing

/-- The reverse-mapping loops of `get_moved_keys` (`ring.py` lines
146-155): `key_to_node[key] = node_id` for every key of every entry, a
later assignment overwriting an earlier one. -/
def buildKeyToNode (distribution : List (String × List String)) : List (String × String) :=
  distribution.foldl (fun m p => p.2.foldl (fun m key => pySet m key p.1) m) []

/-- `ConsistentHashRing.get_moved_keys` (`ring.py` lines 132-165).  Python
iterates `set(old) | set(new)` in an unspecified order; the embedding
fixes first-occurrence order via `dedup`, and the theorems below use only
membership and emptiness, which do not depend on that order. -/
def ConsistentHashRing.get_moved_keys (old_distribution new_distribution :
    List (String × List String)) : List String :=
  let old_key_to_node := buildKeyToNode old_distribution
  let new_key_to_node := buildKeyToNode new_distribution
  let all_keys := (old_key_to_node.map Prod.fst ++ new_key_to_node.map Prod.fst).dedup
  all_keys.filter (fun key => pyGet old_key_to_node key != pyGet new_key_to_node key)

/-- `ConsistentHashRing.get_ring_state` (`ring.py` lines 190-197). -/
def ConsistentHashRing.get_ring_state (self : ConsistentHashRing) : List (Nat × String) :=
  self.ring.map (fun e => (e.1, e.2.node_id))

/-- The position table is strictly ascending in the hash component —
"sorted ascending with positions unique". -/
def RingSorted (a : List (Nat × Node)) : Prop :=
  a.Pairwise (fun x y => x.1 < y.1)

/-- Ring states reachable from a freshly constructed ring by successful
(`Except.ok`) `add_node` and `remove_node` calls. -/
inductive Reachable : ConsistentHashRing → Prop
  | empty (hash_function : String) : Reachable (ConsistentHashRing.init hash_function)
  | add {R R' : ConsistentHashRing} {n : Node} :
      Reachable R → R.add_node n = (R', .ok ()) → Reachable R'
  | remove {R R' : ConsistentHashRing} {node_id : String} {out : Option Node} :
      Reachable R → R.remove_node node_id = (R', .ok out) → Reachable R'

/-- Relation between a list `L` and the list `M` obtained from it by
inserting one entry `(h, node)` for each `h` in `hs`: `L` survives in
order inside `M`, `M` is `L` plus exactly those entries, and the inserted
hashes are distinct and absent from `L`. -/
structure Restorable (L M : List (Nat × Node)) (hs : List Nat) (node : Node) : Prop where
  sub : L.Sublist M
  perm : M.Perm (hs.map (fun h => (h, node)) ++ L)
  fresh : ∀ h ∈ hs, ∀ e ∈ L, e.1 ≠ h
  nodup : hs.Nodup

section DictLemmas

variable {α β : Type} [BEq α] [LawfulBEq α]

/-- Membership characterization of `pyContains`. -/
theorem pyContains_iff_exists {d : List (α × β)} {k : α} :
    pyContains d k = true ↔ ∃ v, (k, v) ∈ d := by
  simp only [pyContains, List.find?_isSome]
  constructor
  · rintro ⟨⟨k', v⟩, hm, hk⟩
    exact ⟨v, by simpa using (beq_iff_eq.mp hk) ▸ hm⟩
  · rintro ⟨v, hm⟩
    exact ⟨(k, v), hm, by simp⟩

/-- An absent key makes the underlying `find?` fail. -/
theorem find?_eq_none_of_pyContains_false {d : List (α × β)} {k : α}
    (h : pyContains d k = false) : d.find? (fun p => p.1 == k) = none := by
  cases hfind : d.find? (fun p => p.1 == k) with
  | none => rfl
  | some q => simp [pyContains, hfind] at h

/-- A `pyContains`-negative dict has no entry with that key. -/
theorem not_mem_of_pyContains_false {d : List (α × β)} {k : α}
    (h : pyContains d k = false) : ∀ p ∈ d, (p.1 == k) = false := by
  intro p hp
  have hnone := find?_eq_none_of_pyContains_false h
  exact Bool.eq_false_iff.mpr (fun hb => by
    simpa [hb] using List.find?_eq_none.mp hnone p hp)

/-- `pyGet` returns `none` exactly when the key is absent. -/
theorem pyGet_eq_none_iff {d : List (α × β)} {k : α} :
    pyGet d k = none ↔ pyContains d k = false := by
  simp [pyGet, pyContains, Option.map_eq_none, ← Option.not_isSome_iff_eq_none]

/-- A successful `pyGet` exhibits a dict entry. -/
theorem mem_of_pyGet_eq_some {d : List (α × β)} {k : α} {v : β}
    (h : pyGet d k = some v) : (k, v) ∈ d := by
  unfold pyGet at h
  cases hfind : d.find? (fun p => p.1 == k) with
  | none => rw [hfind] at h; simp at h
  | some q =>
    rw [hfind] at h
    obtain ⟨a, b⟩ := q
    have hmem := List.mem_of_find?_eq_some hfind
    have hk : a = k := by simpa using List.find?_some hfind
    have hv : b = v := by simpa using h
    rw [← hk, ← hv]
    exact hmem

/-- A present key appears among the dict's keys. -/
theorem mem_keys_of_pyGet_eq_some {d : List (α × β)} {k : α} {v : β}
    (h : pyGet d k = some v) : k ∈ d.map Prod.fst := by
  exact List.mem_map.mpr ⟨(k, v), mem_of_pyGet_eq_some h, rfl⟩

/-- Writing a fresh key appends the entry, preserving insertion order. -/
theorem pySet_fresh {d : List (α × β)} {k : α} {v : β}
    (h : pyContains d k = false) : pySet d k v = d ++ [(k, v)] := by
  induction d with
  | nil => rfl
  | cons p rest ih =>
    have hp := not_mem_of_pyContains_false h p (by simp)
    have hrest : pyContains rest k = false := by
      simp only [pyContains] at h ⊢
      rw [List.find?_cons, hp] at h
      exact h
    simp [pySet, hp, ih hrest]

/-- `pyContains` over an append. -/
theorem pyContains_append {d d' : List (α × β)} {k : α} :
    pyContains (d ++ d') k = (pyContains d k || pyContains d' k) := by
  simp [pyContains, List.find?_append, Option.isSome_or]

/-- Lookup skips a prefix that lacks the key. -/
theorem pyGet_append_of_fresh {d d' : List (α × β)} {k : α}
    (h : pyContains d k = false) : pyGet (d ++ d') k = pyGet d' k := by
  simp [pyGet, List.find?_append, find?_eq_none_of_pyContains_false h]

/-- Deleting a freshly appended key restores the dict. -/
theorem pyDel_append_fresh {d : List (α × β)} {k : α} {v : β}
    (h : pyContains d k = false) : pyDel (d ++ [(k, v)]) k = d := by
  have hns : ∀ p ∈ d, ¬ ((fun p : α × β => p.1 == k) p = true) := by
    intro p hp hb
    simp [not_mem_of_pyContains_false h p hp] at hb
  rw [pyDel, List.eraseP_append_right _ hns]
  simp [List.eraseP_cons]

end DictLemmas

/-- Entries of a key-unique dict are determined by their key. -/
theorem entry_unique {α β : Type} {d : List (α × β)} (hnd : (d.map Prod.fst).Nodup)
    {p q : α × β} (hp : p ∈ d) (hq : q ∈ d) (hk : p.1 = q.1) : p = q :=
  List.inj_on_of_nodup_map hnd hp hq hk

/-- When every satisfier of the predicate equals `x` and `x` occurs,
`eraseP` removes exactly the first occurrence of `x`. -/
theorem eraseP_decomp_of_unique {α : Type} {p : α → Bool} :
    ∀ {d : List α} {x : α}, x ∈ d → (∀ y ∈ d, (p y = true ↔ y = x)) →
      ∃ l1 l2, d = l1 ++ x :: l2 ∧ d.eraseP p = l1 ++ l2 := by
  intro d
  induction d with
  | nil => intro x hx _; simp at hx
  | cons a rest ih =>
    intro x hx hiff
    by_cases hpa : p a = true
    · have hax : a = x := (hiff a (by simp)).mp hpa
      subst hax
      exact ⟨[], rest, rfl, by simp [List.eraseP_cons, hpa]⟩
    · have hax : a ≠ x := fun hh => hpa ((hiff a (by simp)).mpr hh)
      have hpaf : p a = false := (Bool.not_eq_true _) ▸ hpa
      have hx' : x ∈ rest := by
        rcases List.mem_cons.mp hx with hh | hh
        · exact absurd hh.symm hax
        · exact hh
      obtain ⟨l1, l2, hd, he⟩ := ih hx' (fun y hy => hiff y (by simp [hy]))
      refine ⟨a :: l1, l2, by rw [hd]; rfl, ?_⟩
      simp only [List.eraseP_cons, hpaf, cond_false]
      rw [he]
      rfl

/-- A sublist none of whose elements satisfies the predicate survives
`eraseP` intact. -/
theorem sublist_eraseP_of_none {α : Type} {p : α → Bool} :
    ∀ {L M : List α}, L.Sublist M → (∀ y ∈ L, p y = false) →
      L.Sublist (M.eraseP p) := by
  intro L M hsub
  induction hsub with
  | slnil => intro _; simp
  | cons a hs ih =>
    intro hnone
    rw [List.eraseP_cons]
    by_cases hpa : p a = true
    · simpa [hpa] using hs
    · simp only [Bool.not_eq_true] at hpa
      simpa [hpa] using (ih hnone).cons a
  | cons₂ a hs ih =>
    intro hnone
    have hpa : p a = false := hnone a (by simp)
    rw [List.eraseP_cons, hpa]
    exact (ih (fun y hy => hnone y (by simp [hy]))).cons₂ a

/-- `exceptMap` preserves the length on success. -/
theorem exceptMap_ok_length {ε α β : Type} {g : α → Except ε β} :
    ∀ {l : List α} {ys : List β}, exceptMap g l = .ok ys → ys.length = l.length := by
  intro l
  induction l with
  | nil =>
    intro ys h
    cases h
    rfl
  | cons a rest ih =>
    intro ys h
    unfold exceptMap at h
    cases hga : g a with
    | error e => rw [hga] at h; cases h
    | ok b =>
      rw [hga] at h
      cases hrest : exceptMap g rest with
      | error e => rw [hrest] at h; cases h
      | ok bs =>
        rw [hrest] at h
        cases h
        simp [ih hrest]

/-- Strict growth of hash values along a sorted table. -/
theorem RingSorted.getD_lt {a : List (Nat × Node)} (hs : RingSorted a) {i j : Nat}
    (hij : i < j) (hj : j < a.length) (d0 : Nat × Node) :
    (a.getD i d0).1 < (a.getD j d0).1 := by
  have hi : i < a.length := lt_trans hij hj
  rw [List.getD_eq_getElem _ _ hi, List.getD_eq_getElem _ _ hj]
  exact List.pairwise_iff_getElem.mp hs i j hi hj hij

/-- Weak growth of hash values along a sorted table. -/
theorem RingSorted.getD_le {a : List (Nat × Node)} (hs : RingSorted a) {i j : Nat}
    (hij : i ≤ j) (hj : j < a.length) (d0 : Nat × Node) :
    (a.getD i d0).1 ≤ (a.getD j d0).1 := by
  rcases lt_or_eq_of_le hij with hlt | rfl
  · exact le_of_lt (hs.getD_lt hlt hj d0)
  · exact le_refl _

/-- Membership in terms of `getD` at an in-range index. -/
theorem mem_iff_getD {α : Type} {a : List α} {e : α} (d0 : α) :
    e ∈ a ↔ ∃ i, i < a.length ∧ a.getD i d0 = e := by
  rw [List.mem_iff_getElem]
  constructor
  · rintro ⟨i, hi, rfl⟩
    exact ⟨i, hi, List.getD_eq_getElem _ _ hi⟩
  · rintro ⟨i, hi, he⟩
    exact ⟨i, hi, by rw [← List.getD_eq_getElem _ _ hi, he]⟩

/-- Index-wise prefix bound transported to membership in `take`. -/
theorem take_fst_lt {a : List (Nat × Node)} {r key_hash : Nat}
    (H : ∀ i, i < r → (a.getD i (0, default)).1 < key_hash) :
    ∀ e ∈ a.take r, e.1 < key_hash := by
  intro e he
  rw [List.mem_iff_getElem] at he
  obtain ⟨i, hi, hei⟩ := he
  have hit : i < r ⊓ a.length := by simpa [List.length_take] using hi
  have hia : i < a.length := lt_of_lt_of_le hit inf_le_right
  rw [List.getElem_take] at hei
  have hlt := H i (lt_of_lt_of_le hit inf_le_left)
  rw [List.getD_eq_getElem _ _ hia, hei] at hlt
  exact hlt

/-- Index-wise suffix bound transported to membership in `drop`. -/
theorem drop_fst_gt {a : List (Nat × Node)} {r key_hash : Nat}
    (H : ∀ i, r ≤ i → i < a.length → key_hash < (a.getD i (0, default)).1) :
    ∀ e ∈ a.drop r, key_hash < e.1 := by
  intro e he
  rw [List.mem_iff_getElem] at he
  obtain ⟨j, hj, hej⟩ := he
  have hja : r + j < a.length := by
    have := hj; simp [List.length_drop] at this; omega
  rw [List.getElem_drop] at hej
  have hgt := H (r + j) (Nat.le_add_right _ _) hja
  rw [List.getD_eq_getElem _ _ hja, hej] at hgt
  exact hgt

/-- Unfolding equation of the `bisect_right` loop with remaining fuel. -/
theorem bisect_loop_succ (a : List (Nat × Node)) (key_hash : Nat) (probe : Option Node)
    (lo hi fuel : Nat) :
    bisect_loop a key_hash probe lo hi (fuel + 1) =
      if lo < hi then
        match pyTupleLt key_hash probe (a.getD ((lo + hi) / 2) (0, default)) with
        | .error e => .error e
        | .ok true => bisect_loop a key_hash probe lo ((lo + hi) / 2) fuel
        | .ok false => bisect_loop a key_hash probe ((lo + hi) / 2 + 1) hi fuel
      else .ok lo := rfl

/-- The loop with exhausted fuel returns `lo`. -/
theorem bisect_loop_zero (a : List (Nat × Node)) (key_hash : Nat) (probe : Option Node)
    (lo hi : Nat) :
    bisect_loop a key_hash probe lo hi 0 = .ok lo := rfl

/-- On a sorted table with no entry hashing exactly to the probe, the
`bisect_right` loop succeeds and the returned index splits the table into
a strictly-smaller prefix and a strictly-larger suffix. -/
theorem bisect_loop_ok {a : List (Nat × Node)} {key_hash : Nat} {probe : Option Node}
    (hsorted : RingSorted a)
    (hnotie : ∀ e ∈ a, e.1 ≠ key_hash) :
    ∀ fuel lo hi, lo ≤ hi → hi ≤ a.length → hi - lo ≤ fuel →
      (∀ i, i < lo → (a.getD i (0, default)).1 < key_hash) →
      (∀ i, hi ≤ i → i < a.length → key_hash < (a.getD i (0, default)).1) →
      ∃ r, bisect_loop a key_hash probe lo hi fuel = .ok r ∧ lo ≤ r ∧ r ≤ hi ∧
        (∀ i, i < r → (a.getD i (0, default)).1 < key_hash) ∧
        (∀ i, r ≤ i → i < a.length → key_hash < (a.getD i (0, default)).1) := by
  intro fuel
  induction fuel with
  | zero =>
    intro lo hi hlohi hhi hfuel hlow hhigh
    have heq : hi = lo := by omega
    subst heq
    exact ⟨hi, bisect_loop_zero a key_hash probe hi hi, le_refl _, le_refl _, hlow, hhigh⟩
  | succ fuel ih =>
    intro lo hi hlohi hhi hfuel hlow hhigh
    by_cases hlh : lo < hi
    · have hmidlt : (lo + hi) / 2 < hi := by omega
      have hmidge : lo ≤ (lo + hi) / 2 := by omega
      have hmida : (lo + hi) / 2 < a.length := lt_of_lt_of_le hmidlt hhi
      have hmem : a.getD ((lo + hi) / 2) (0, default) ∈ a := by
        rw [List.getD_eq_getElem _ _ hmida]
        exact List.getElem_mem _
      rcases lt_trichotomy key_hash (a.getD ((lo + hi) / 2) (0, default)).1
        with hcase | hcase | hcase
      · have hp : pyTupleLt key_hash probe (a.getD ((lo + hi) / 2) (0, default)) = .ok true := by
          unfold pyTupleLt
          rw [if_pos hcase]
        have step : bisect_loop a key_hash probe lo hi (fuel + 1) =
            bisect_loop a key_hash probe lo ((lo + hi) / 2) fuel := by
          rw [bisect_loop_succ, if_pos hlh, hp]
        rw [step]
        obtain ⟨r, hr, hr1, hr2, hr3, hr4⟩ := ih lo ((lo + hi) / 2) hmidge
          (le_of_lt hmida) (by omega) hlow
          (fun i hmi hia => lt_of_lt_of_le hcase (hsorted.getD_le hmi hia _))
        exact ⟨r, hr, hr1, le_trans hr2 (le_of_lt hmidlt), hr3, hr4⟩
      · exact absurd hcase.symm (hnotie _ hmem)
      · have hp : pyTupleLt key_hash probe (a.getD ((lo + hi) / 2) (0, default)) = .ok false := by
          unfold pyTupleLt
          rw [if_neg (by omega), if_pos hcase]
        have step : bisect_loop a key_hash probe lo hi (fuel + 1) =
            bisect_loop a key_hash probe ((lo + hi) / 2 + 1) hi fuel := by
          rw [bisect_loop_succ, if_pos hlh, hp]
        rw [step]
        have hlow' : ∀ i, i < (lo + hi) / 2 + 1 → (a.getD i (0, default)).1 < key_hash := by
          intro i hi'
          rcases Nat.lt_succ_iff_lt_or_eq.mp hi' with hlt | rfl
          · exact lt_of_le_of_lt (hsorted.getD_le (le_of_lt hlt) hmida _) hcase
          · exact hcase
        obtain ⟨r, hr, hr1, hr2, hr3, hr4⟩ := ih ((lo + hi) / 2 + 1) hi
          (by omega) hhi (by omega) hlow' hhigh
        exact ⟨r, hr, by omega, hr2, hr3, hr4⟩
    · have heq : hi = lo := by omega
      subst heq
      exact ⟨hi, by rw [bisect_loop_succ, if_neg hlh], le_refl _, le_refl _, hlow, hhigh⟩

/-- On a sorted table containing an entry whose hash equals the probe
inside the searched window, the `(key_hash, None)` probe of
`get_node_for_key` inevitably meets that entry and raises `TypeError`
(`None` orders against no `Node`). -/
theorem bisect_loop_tie {a : List (Nat × Node)} {key_hash : Nat}
    (hsorted : RingSorted a) :
    ∀ fuel lo hi, hi ≤ a.length → hi - lo ≤ fuel →
      (∃ k, lo ≤ k ∧ k < hi ∧ (a.getD k (0, default)).1 = key_hash) →
      bisect_loop a key_hash none lo hi fuel = .error .typeError := by
  intro fuel
  induction fuel with
  | zero =>
    intro lo hi _ hfuel hex
    obtain ⟨k, hk1, hk2, _⟩ := hex
    omega
  | succ fuel ih =>
    intro lo hi hhi hfuel hex
    obtain ⟨k, hlok, hkhi, hkey⟩ := hex
    have hlh : lo < hi := by omega
    have hmidlt : (lo + hi) / 2 < hi := by omega
    have hmidge : lo ≤ (lo + hi) / 2 := by omega
    have hmida : (lo + hi) / 2 < a.length := lt_of_lt_of_le hmidlt hhi
    have hka : k < a.length := lt_of_lt_of_le hkhi hhi
    rcases lt_trichotomy key_hash (a.getD ((lo + hi) / 2) (0, default)).1
      with hcase | hcase | hcase
    · have hp : pyTupleLt key_hash none (a.getD ((lo + hi) / 2) (0, default)) = .ok true := by
        unfold pyTupleLt
        rw [if_pos hcase]
      have hkmid : k < (lo + hi) / 2 := by
        by_contra hcon
        have := hsorted.getD_le (le_of_not_lt hcon) hka (0, default)
        omega
      rw [bisect_loop_succ, if_pos hlh, hp]
      exact ih lo ((lo + hi) / 2) (le_of_lt hmida) (by omega) ⟨k, hlok, hkmid, hkey⟩
    · have hp : pyTupleLt key_hash none (a.getD ((lo + hi) / 2) (0, default)) =
          .error .typeError := by
        unfold pyTupleLt
        rw [if_neg (by omega), if_neg (by omega)]
      rw [bisect_loop_succ, if_pos hlh, hp]
    · have hp : pyTupleLt key_hash none (a.getD ((lo + hi) / 2) (0, default)) = .ok false := by
        unfold pyTupleLt
        rw [if_neg (by omega), if_pos hcase]
      have hkmid : (lo + hi) / 2 < k := by
        by_contra hcon
        have := hsorted.getD_le (le_of_not_lt hcon) hmida (0, default)
        omega
      rw [bisect_loop_succ, if_pos hlh, hp]
      exact ih ((lo + hi) / 2 + 1) hi hhi (by omega) ⟨k, by omega, hkhi, hkey⟩

/-- Whatever the table's order, if no entry hashes to the probe then every
comparison is decided and the loop returns an in-range index. -/
theorem bisect_loop_ok_any {a : List (Nat × Node)} {key_hash : Nat} {probe : Option Node}
    (hnotie : ∀ e ∈ a, e.1 ≠ key_hash) :
    ∀ fuel lo hi, lo ≤ hi → hi ≤ a.length → hi - lo ≤ fuel →
      ∃ r, bisect_loop a key_hash probe lo hi fuel = .ok r ∧ r ≤ a.length := by
  intro fuel
  induction fuel with
  | zero =>
    intro lo hi hlohi hhi hfuel
    have heq : hi = lo := by omega
    subst heq
    exact ⟨hi, bisect_loop_zero a key_hash probe hi hi, hhi⟩
  | succ fuel ih =>
    intro lo hi hlohi hhi hfuel
    by_cases hlh : lo < hi
    · have hmidlt : (lo + hi) / 2 < hi := by omega
      have hmidge : lo ≤ (lo + hi) / 2 := by omega
      have hmida : (lo + hi) / 2 < a.length := lt_of_lt_of_le hmidlt hhi
      have hmem : a.getD ((lo + hi) / 2) (0, default) ∈ a := by
        rw [List.getD_eq_getElem _ _ hmida]
        exact List.getElem_mem _
      rcases lt_trichotomy key_hash (a.getD ((lo + hi) / 2) (0, default)).1
        with hcase | hcase | hcase
      · have hp : pyTupleLt key_hash probe (a.getD ((lo + hi) / 2) (0, default)) = .ok true := by
          unfold pyTupleLt
          rw [if_pos hcase]
        rw [bisect_loop_succ, if_pos hlh, hp]
        exact ih lo ((lo + hi) / 2) hmidge (le_of_lt hmida) (by omega)
      · exact absurd hcase.symm (hnotie _ hmem)
      · have hp : pyTupleLt key_hash probe (a.getD ((lo + hi) / 2) (0, default)) = .ok false := by
          unfold pyTupleLt
          rw [if_neg (by omega), if_pos hcase]
        rw [bisect_loop_succ, if_pos hlh, hp]
        exact ih ((lo + hi) / 2 + 1) hi (by omega) hhi (by omega)
    · have heq : hi = lo := by omega
      subst heq
      exact ⟨hi, by rw [bisect_loop_succ, if_neg hlh], hhi⟩

/-- `bisect_right` on a sorted table without ties: the index separates
smaller hashes from larger ones. -/
theorem bisect_right_ok {a : List (Nat × Node)} {key_hash : Nat} {probe : Option Node}
    (hsorted : RingSorted a) (hnotie : ∀ e ∈ a, e.1 ≠ key_hash) :
    ∃ r, bisect_right a key_hash probe = .ok r ∧ r ≤ a.length ∧
      (∀ i, i < r → (a.getD i (0, default)).1 < key_hash) ∧
      (∀ i, r ≤ i → i < a.length → key_hash < (a.getD i (0, default)).1) := by
  obtain ⟨r, hr, _, hr2, hr3, hr4⟩ := bisect_loop_ok hsorted hnotie a.length 0 a.length
    (Nat.zero_le _) (le_refl _) (by omega)
    (fun i h1 => absurd h1 (Nat.not_lt_zero i))
    (fun i h1 h2 => absurd h2 (by omega))
  exact ⟨r, hr, hr2, hr3, hr4⟩

/-- `bisect_right` with the `(key_hash, None)` probe of `get_node_for_key`
raises `TypeError` on a sorted table when some entry hashes exactly to the
probe value. -/
theorem bisect_right_tie {a : List (Nat × Node)} {key_hash : Nat}
    (hsorted : RingSorted a) {e : Nat × Node} (he : e ∈ a) (hk : e.1 = key_hash) :
    bisect_right a key_hash none = .error .typeError := by
  obtain ⟨k, hka, hkd⟩ := (mem_iff_getD (0, default)).mp he
  exact bisect_loop_tie hsorted a.length 0 a.length (le_refl _) (by omega)
    ⟨k, Nat.zero_le _, hka, by rw [hkd, hk]⟩

/-- `bisect_right` without ties succeeds regardless of order. -/
theorem bisect_right_ok_any {a : List (Nat × Node)} {key_hash : Nat} {probe : Option Node}
    (hnotie : ∀ e ∈ a, e.1 ≠ key_hash) :
    ∃ r, bisect_right a key_hash probe = .ok r ∧ r ≤ a.length :=
  bisect_loop_ok_any hnotie a.length 0 a.length (Nat.zero_le _) (le_refl _) (by omega)

/-- `insort` of a fresh hash splices the entry at the computed index. -/
theorem insort_fresh_any {ring : List (Nat × Node)} {hv : Nat} {n : Node}
    (hfresh : ∀ e ∈ ring, e.1 ≠ hv) :
    ∃ r, r ≤ ring.length ∧
      insort ring hv n = .ok (ring.take r ++ (hv, n) :: ring.drop r) := by
  obtain ⟨r, hr, hrle⟩ := bisect_right_ok_any hfresh
  exact ⟨r, hrle, by rw [insort, hr]⟩

/-- `insort` of a fresh hash into a sorted table: the result is sorted,
is the old table plus the new entry, and keeps the old table as a
sublist. -/
theorem insort_sorted {ring : List (Nat × Node)} {hv : Nat} {n : Node}
    (hsorted : RingSorted ring) (hfresh : ∀ e ∈ ring, e.1 ≠ hv) :
    ∃ l, insort ring hv n = .ok l ∧ RingSorted l ∧
      l.Perm ((hv, n) :: ring) ∧ ring.Sublist l := by
  obtain ⟨r, hr, hrle, hlow, hhigh⟩ := bisect_right_ok hsorted hfresh
  have htake : ∀ e ∈ ring.take r, e.1 < hv := take_fst_lt hlow
  have hdrop : ∀ e ∈ ring.drop r, hv < e.1 := drop_fst_gt hhigh
  refine ⟨_, by rw [insort, hr], ?_, ?_, ?_⟩
  · rw [RingSorted, List.pairwise_append]
    refine ⟨hsorted.sublist (List.take_sublist _ _), ?_, ?_⟩
    · rw [List.pairwise_cons]
      exact ⟨fun e he => hdrop e he, hsorted.sublist (List.drop_sublist _ _)⟩
    · intro x hx y hy
      rcases List.mem_cons.mp hy with rfl | hy'
      · exact htake x hx
      · exact lt_trans (htake x hx) (hdrop y hy')
  · have hperm : (ring.take r ++ (hv, n) :: ring.drop r).Perm
        ((hv, n) :: (ring.take r ++ ring.drop r)) := List.perm_middle
    rw [List.take_append_drop] at hperm
    exact hperm
  · have hsub : (ring.take r ++ ring.drop r).Sublist
        (ring.take r ++ (hv, n) :: ring.drop r) :=
      (List.sublist_cons_self _ _).append_left _
    rw [List.take_append_drop] at hsub
    exact hsub

/-- The first index at which a predicate fires determines `find?`. -/
theorem find?_eq_getD_of_first {α : Type} {p : α → Bool} :
    ∀ {a : List α} {r : Nat} (d0 : α), r < a.length →
      (∀ i, i < r → p (a.getD i d0) = false) → p (a.getD r d0) = true →
      a.find? p = some (a.getD r d0) := by
  intro a
  induction a with
  | nil => intro r d0 hr _ _; simp at hr
  | cons x rest ih =>
    intro r d0 hr hbefore hp
    cases r with
    | zero =>
      rw [List.find?_cons]
      simp only [List.getD_cons_zero] at hp ⊢
      rw [hp]
    | succ r' =>
      have hx : p x = false := by simpa using hbefore 0 (Nat.succ_pos _)
      rw [List.find?_cons, hx]
      simp only [List.getD_cons_succ] at hp ⊢
      exact ih d0 (by simpa using hr)
        (fun i hi => by simpa using hbefore (i + 1) (by omega)) hp

/-- Lookup on a sorted, non-empty table whose positions all differ from
the key's hash: the owner is the first position with value at least the
hash, or the first position in the table if there is none (wrap-around).
This is the upper-bound search of `get_node_for_key` without the
tie-break edge case. -/
theorem get_node_for_key_spec {R : ConsistentHashRing} {key : String} {key_hash : Nat}
    (hsorted : RingSorted R.ring) (hne : R.ring ≠ [])
    (hhash : R.hash_key key = .ok key_hash)
    (hfresh : ∀ e ∈ R.ring, e.1 ≠ key_hash) :
    R.get_node_for_key key = .ok (some (
      match R.ring.find? (fun e => decide (key_hash ≤ e.1)) with
      | some e => e.2
      | none => (R.ring.getD 0 (0, default)).2)) := by
  have hEmp : R.ring.isEmpty = false := by
    cases hr : R.ring with
    | nil => exact absurd hr hne
    | cons a l => rfl
  obtain ⟨r, hr, hrle, hlow, hhigh⟩ :=
    @bisect_right_ok R.ring key_hash none hsorted hfresh
  rw [ConsistentHashRing.get_node_for_key, hEmp]
  simp only [Bool.false_eq_true, if_false, hhash, hr]
  rcases lt_or_eq_of_le hrle with hrlt | hreq
  · have hidx : ¬ R.ring.length ≤ r := by omega
    have hfind : R.ring.find? (fun e => decide (key_hash ≤ e.1)) =
        some (R.ring.getD r (0, default)) := by
      apply find?_eq_getD_of_first (0, default) hrlt
      · intro i hi
        have hx := hlow i hi
        show decide (key_hash ≤ (R.ring.getD i (0, default)).1) = false
        exact decide_eq_false_iff_not.mpr (by omega)
      · have hx := hhigh r (le_refl _) hrlt
        show decide (key_hash ≤ (R.ring.getD r (0, default)).1) = true
        exact decide_eq_true (by omega)
    rw [hfind]
    simp [hidx]
  · have hidx : R.ring.length ≤ r := le_of_eq hreq.symm
    have hfind : R.ring.find? (fun e => decide (key_hash ≤ e.1)) = none := by
      apply List.find?_eq_none.mpr
      intro e he
      obtain ⟨i, hia, hid⟩ := (mem_iff_getD (0, default)).mp he
      have hlt := hlow i (by omega)
      rw [hid] at hlt
      simp only [decide_eq_true_eq]
      omega
    rw [hfind]
    simp [hidx]

/-- Unfolding equation of the `add_node` insertion loop. -/
theorem insert_hashes_cons (S : ConsistentHashRing) (node : Node) (hv : Nat)
    (rest : List Nat) :
    S.insert_hashes node (hv :: rest) =
      match insort S.ring hv node with
      | .error e => ({ S with hash_to_node := pySet S.hash_to_node hv node }, .error e)
      | .ok l => ConsistentHashRing.insert_hashes
          { S with hash_to_node := pySet S.hash_to_node hv node, ring := l } node rest := rfl

/-- The insertion loop on an empty hash list is the identity. -/
theorem insert_hashes_nil (S : ConsistentHashRing) (node : Node) :
    S.insert_hashes node [] = (S, .ok ()) := rfl

/-- Unfolding equation of the `remove_node` removal loop. -/
theorem remove_hashes_cons (S : ConsistentHashRing) (node : Node) (hv : Nat)
    (rest : List Nat) :
    S.remove_hashes node (hv :: rest) =
      if pyContains S.hash_to_node hv then
        ConsistentHashRing.remove_hashes
          { S with hash_to_node := pyDel S.hash_to_node hv,
                   ring := S.ring.eraseP
                     (fun e => e.1 == hv && e.2.node_id == node.node_id) } node rest
      else S.remove_hashes node rest := rfl

/-- The removal loop on an empty hash list is the identity. -/
theorem remove_hashes_nil (S : ConsistentHashRing) (node : Node) :
    S.remove_hashes node [] = S := rfl

/-- With no insertions left, a `Restorable` list equals the original. -/
theorem Restorable.eq_of_nil {L M : List (Nat × Node)} {node : Node}
    (h : Restorable L M [] node) : M = L :=
  (h.sub.eq_of_length (by simpa using h.perm.length_eq.symm)).symm

/-- One removal step on a `Restorable` list: a predicate that accepts the
head entry and fires only on its hash removes exactly that entry. -/
theorem Restorable.step {L M : List (Nat × Node)} {node : Node} {hv : Nat}
    {rest : List Nat} (hres : Restorable L M (hv :: rest) node)
    {p : (Nat × Node) → Bool}
    (hp_head : p (hv, node) = true)
    (hp_key : ∀ y, p y = true → y.1 = hv) :
    (hv, node) ∈ M ∧ Restorable L (M.eraseP p) rest node := by
  have hmem : (hv, node) ∈ M := hres.perm.mem_iff.mpr (by simp)
  have hnotin : hv ∉ rest := (List.nodup_cons.mp hres.nodup).1
  have hiff : ∀ y ∈ M, (p y = true ↔ y = (hv, node)) := by
    intro y hy
    constructor
    · intro hpy
      have hykey : y.1 = hv := hp_key y hpy
      have hy' : y ∈ (hv :: rest).map (fun h => (h, node)) ++ L :=
        hres.perm.mem_iff.mp hy
      rcases List.mem_append.mp hy' with hy1 | hy2
      · rcases List.mem_map.mp hy1 with ⟨h', hh', rfl⟩
        rcases List.mem_cons.mp hh' with heq | hh''
        · rw [heq]
        · exfalso
          have hh : h' = hv := hykey
          rw [hh] at hh''
          exact hnotin hh''
      · exact absurd hykey (hres.fresh hv (by simp) y hy2)
    · intro hyx
      rw [hyx]
      exact hp_head
  obtain ⟨l1, l2, hd, he⟩ := eraseP_decomp_of_unique hmem hiff
  refine ⟨hmem, ?_, ?_, ?_, ?_⟩
  · apply sublist_eraseP_of_none hres.sub
    intro y hyL
    have hne : y.1 ≠ hv := hres.fresh hv (by simp) y hyL
    cases hpy : p y with
    | false => rfl
    | true => exact absurd (hp_key y hpy) hne
  · rw [he]
    have hdp : M.Perm ((hv, node) :: (l1 ++ l2)) := by
      rw [hd]
      exact List.perm_middle
    have hchain : ((hv, node) :: (l1 ++ l2)).Perm
        ((hv, node) :: (rest.map (fun h => (h, node)) ++ L)) := by
      have := hdp.symm.trans hres.perm
      simpa using this
    exact List.Perm.cons_inv hchain
  · exact fun h hh e he => hres.fresh h (by simp [hh]) e he
  · exact (List.nodup_cons.mp hres.nodup).2

/-- Running the removal loop over all inserted hashes restores the ring
table and the hash-to-node dict exactly. -/
theorem remove_hashes_restore {node : Node} :
    ∀ (hs : List Nat) (S : ConsistentHashRing) (L D : List (Nat × Node)),
      Restorable L S.ring hs node → Restorable D S.hash_to_node hs node →
      S.remove_hashes node hs = { S with ring := L, hash_to_node := D } := by
  intro hs
  induction hs with
  | nil =>
    intro S L D hr hd
    rw [remove_hashes_nil, ← hr.eq_of_nil, ← hd.eq_of_nil]
  | cons hv rest ih =>
    intro S L D hr hd
    obtain ⟨hmemD, hd'⟩ := @Restorable.step D S.hash_to_node node hv rest hd
      (fun e => e.1 == hv) (by simp) (fun y hy => by simpa using hy)
    obtain ⟨hmemR, hr'⟩ := @Restorable.step L S.ring node hv rest hr
      (fun e => e.1 == hv && e.2.node_id == node.node_id)
      (by simp) (fun y hy => by
        simp only [Bool.and_eq_true, beq_iff_eq] at hy
        exact hy.1)
    have hcont : pyContains S.hash_to_node hv = true :=
      pyContains_iff_exists.mpr ⟨node, hmemD⟩
    rw [remove_hashes_cons, if_pos hcont]
    exact ih _ L D hr' hd'

/-- Inserting distinct fresh hashes succeeds and leaves both containers in
`Restorable` relation with their originals. -/
theorem insert_hashes_restorable {node : Node} :
    ∀ (hs : List Nat) (S : ConsistentHashRing),
      hs.Nodup →
      (∀ h ∈ hs, (∀ e ∈ S.ring, e.1 ≠ h) ∧ pyContains S.hash_to_node h = false) →
      ∃ S', S.insert_hashes node hs = (S', .ok ()) ∧
        Restorable S.ring S'.ring hs node ∧
        Restorable S.hash_to_node S'.hash_to_node hs node ∧
        S'.nodes = S.nodes ∧ S'.hash_function = S.hash_function := by
  intro hs
  induction hs with
  | nil =>
    intro S _ _
    exact ⟨S, insert_hashes_nil S node,
      ⟨List.Sublist.refl _, by simp, by simp, List.nodup_nil⟩,
      ⟨List.Sublist.refl _, by simp, by simp, List.nodup_nil⟩, rfl, rfl⟩
  | cons hv rest ih =>
    intro S hnd hfr
    have hnotin : hv ∉ rest := (List.nodup_cons.mp hnd).1
    obtain ⟨hfr_ring, hfr_h2n⟩ := hfr hv (by simp)
    obtain ⟨r, hrle, hins⟩ := @insort_fresh_any S.ring hv node hfr_ring
    have hSet : pySet S.hash_to_node hv node = S.hash_to_node ++ [(hv, node)] :=
      pySet_fresh hfr_h2n
    have hstep : S.insert_hashes node (hv :: rest) =
        ConsistentHashRing.insert_hashes
          { S with hash_to_node := pySet S.hash_to_node hv node,
                   ring := S.ring.take r ++ (hv, node) :: S.ring.drop r } node rest := by
      rw [insert_hashes_cons, hins]
    have hmem_ring : ∀ e ∈ S.ring.take r ++ (hv, node) :: S.ring.drop r,
        e = (hv, node) ∨ e ∈ S.ring := by
      intro e he
      rcases List.mem_append.mp he with h1 | h1
      · exact Or.inr (List.take_subset _ _ h1)
      · rcases List.mem_cons.mp h1 with h2 | h2
        · exact Or.inl h2
        · exact Or.inr (List.drop_subset _ _ h2)
    have hargs : ∀ h ∈ rest,
        (∀ e ∈ S.ring.take r ++ (hv, node) :: S.ring.drop r, e.1 ≠ h) ∧
        pyContains (pySet S.hash_to_node hv node) h = false := by
      intro h hh
      constructor
      · intro e he
        rcases hmem_ring e he with rfl | hmem
        · show hv ≠ h
          intro hc
          rw [hc] at hnotin
          exact hnotin hh
        · exact (hfr h (by simp [hh])).1 e hmem
      · rw [hSet, pyContains_append]
        have h1 : pyContains S.hash_to_node h = false := (hfr h (by simp [hh])).2
        have h2 : pyContains [(hv, node)] h = false := by
          have hne : hv ≠ h := fun hc => by rw [hc] at hnotin; exact hnotin hh
          have hb : (hv == h) = false := beq_eq_false_iff_ne.mpr hne
          simp [pyContains, List.find?, hb]
        rw [h1, h2]
        rfl
    obtain ⟨S', hS', hRr, hRd, hn, hf⟩ := ih
      { S with hash_to_node := pySet S.hash_to_node hv node,
               ring := S.ring.take r ++ (hv, node) :: S.ring.drop r }
      (List.nodup_cons.mp hnd).2 hargs
    have hsub1 : S.ring.Sublist (S.ring.take r ++ (hv, node) :: S.ring.drop r) := by
      have hs' : (S.ring.take r ++ S.ring.drop r).Sublist
          (S.ring.take r ++ (hv, node) :: S.ring.drop r) :=
        (List.sublist_cons_self _ _).append_left _
      rw [List.take_append_drop] at hs'
      exact hs'
    have hperm1 : (S.ring.take r ++ (hv, node) :: S.ring.drop r).Perm
        ((hv, node) :: S.ring) := by
      have hp : (S.ring.take r ++ (hv, node) :: S.ring.drop r).Perm
          ((hv, node) :: (S.ring.take r ++ S.ring.drop r)) := List.perm_middle
      rw [List.take_append_drop] at hp
      exact hp
    refine ⟨S', by rw [hstep]; exact hS', ?_, ?_, hn, hf⟩
    · refine ⟨hsub1.trans hRr.sub, ?_, ?_, hnd⟩
      · have hchain := hRr.perm.trans (hperm1.append_left (rest.map (fun h => (h, node))))
        have hmid : (rest.map (fun h => (h, node)) ++ (hv, node) :: S.ring).Perm
            ((hv, node) :: (rest.map (fun h => (h, node)) ++ S.ring)) :=
          List.perm_middle
        simpa using hchain.trans hmid
      · intro h hh e he
        exact (hfr h hh).1 e he
    · have hsub2 : S.hash_to_node.Sublist (pySet S.hash_to_node hv node) := by
        rw [hSet]
        exact List.sublist_append_left _ _
      refine ⟨hsub2.trans hRd.sub, ?_, ?_, hnd⟩
      · have hp1 : (pySet S.hash_to_node hv node).Perm ((hv, node) :: S.hash_to_node) := by
          rw [hSet]
          exact List.perm_append_singleton _ _
        have hchain := hRd.perm.trans (hp1.append_left (rest.map (fun h => (h, node))))
        have hmid : (rest.map (fun h => (h, node)) ++ (hv, node) :: S.hash_to_node).Perm
            ((hv, node) :: (rest.map (fun h => (h, node)) ++ S.hash_to_node)) :=
          List.perm_middle
        simpa using hchain.trans hmid
      · intro h hh e he
        have hfalse := not_mem_of_pyContains_false (hfr h hh).2 e he
        exact ne_of_beq_false hfalse

/-- `add_node` on a registered id: the duplicate `ValueError` is raised
before any mutation, so the state is returned untouched. -/
theorem add_node_dup {R : ConsistentHashRing} {n : Node}
    (hc : pyContains R.nodes n.node_id = true) :
    R.add_node n =
      (R, .error (.valueError ("Node " ++ n.node_id ++ " already exists in the ring"))) := by
  unfold ConsistentHashRing.add_node
  rw [if_pos hc]

/-- `add_node` on a fresh id registers the node, then computes and inserts
the hash values. -/
theorem add_node_fresh {R : ConsistentHashRing} {n : Node}
    (hc : pyContains R.nodes n.node_id = false) :
    R.add_node n =
      match n.get_hash_values R.hash_function with
      | .error e => ({ R with nodes := pySet R.nodes n.node_id n }, .error e)
      | .ok hash_values =>
        ConsistentHashRing.insert_hashes
          { R with nodes := pySet R.nodes n.node_id n } n hash_values := by
  unfold ConsistentHashRing.add_node
  rw [if_neg (by simp [hc])]

/-- `remove_node` of an unregistered id returns `None` with no mutation. -/
theorem remove_node_absent {R : ConsistentHashRing} {node_id : String}
    (hg : pyGet R.nodes node_id = none) :
    R.remove_node node_id = (R, .ok none) := by
  unfold ConsistentHashRing.remove_node
  rw [hg]

/-- `remove_node` of a registered id recomputes the hash values, removes
them, then deletes the registry entry. -/
theorem remove_node_found {R : ConsistentHashRing} {node_id : String} {node : Node}
    (hg : pyGet R.nodes node_id = some node) :
    R.remove_node node_id =
      match node.get_hash_values R.hash_function with
      | .error e => (R, .error e)
      | .ok hash_values =>
        ({ R.remove_hashes node hash_values with
            nodes := pyDel (R.remove_hashes node hash_values).nodes node_id },
         .ok (some node)) := by
  unfold ConsistentHashRing.remove_node
  rw [hg]

/-- Field-wise extensionality for ring states. -/
theorem ring_state_ext {X R : ConsistentHashRing}
    (h1 : X.hash_function = R.hash_function) (h2 : X.ring = R.ring)
    (h3 : X.nodes = R.nodes) (h4 : X.hash_to_node = R.hash_to_node) : X = R := by
  cases X
  cases R
  simp_all

/-- Adding a fresh node whose positions collide with nothing and then
removing it restores the ring state exactly and returns the node. -/
theorem add_then_remove_roundtrip (R : ConsistentHashRing) (n : Node) (hs : List Nat)
    (hc : pyContains R.nodes n.node_id = false)
    (hhv : n.get_hash_values R.hash_function = .ok hs)
    (hnd : hs.Nodup)
    (hfresh : ∀ h ∈ hs, (∀ e ∈ R.ring, e.1 ≠ h) ∧ pyContains R.hash_to_node h = false) :
    ∃ R', R.add_node n = (R', .ok ()) ∧ R'.remove_node n.node_id = (R, .ok (some n)) := by
  have hset : pySet R.nodes n.node_id n = R.nodes ++ [(n.node_id, n)] := pySet_fresh hc
  obtain ⟨S', hS', hRr, hRd, hn, hf⟩ := insert_hashes_restorable hs
    { R with nodes := pySet R.nodes n.node_id n } hnd (fun h hh => hfresh h hh)
  refine ⟨S', ?_, ?_⟩
  · rw [add_node_fresh hc, hhv]
    exact hS'
  · have hget : pyGet S'.nodes n.node_id = some n := by
      rw [hn]
      show pyGet (pySet R.nodes n.node_id n) n.node_id = some n
      rw [hset, pyGet_append_of_fresh hc]
      simp [pyGet, List.find?]
    have hf' : n.get_hash_values S'.hash_function = .ok hs := by
      rw [hf]
      exact hhv
    rw [remove_node_found hget, hf']
    show ({ S'.remove_hashes n hs with
        nodes := pyDel (S'.remove_hashes n hs).nodes n.node_id },
      (.ok (some n) : Except PyErr (Option Node))) = (R, .ok (some n))
    have hrem := remove_hashes_restore hs S' R.ring R.hash_to_node hRr hRd
    rw [hrem]
    refine Prod.ext ?_ rfl
    apply ring_state_ext
    · exact hf
    · rfl
    · show pyDel S'.nodes n.node_id = R.nodes
      rw [hn, hset]
      exact pyDel_append_fresh hc
    · rfl

/-- C3 counterexample: constructing a ring with the unsupported name
`"md5"` succeeds and yields a fully usable (empty) ring object; the
`UnsupportedHashFunctionError` (`ValueError`) only appears when `_hash_key`
is called, refuting validation-at-construction. -/
theorem C3_construction_accepts_unknown_name :
    ConsistentHashRing.init "md5" =
      { hash_function := "md5", ring := [], nodes := [], hash_to_node := [] } ∧
    (ConsistentHashRing.init "md5").hash_key "anykey" =
      .error (.valueError ("Unsupported hash function: " ++ "md5")) :=
  ⟨rfl, rfl⟩

/-- C3 (amended): construction accepts any hash-function name; the
unsupported-name `ValueError` is raised per call, by `_hash_key` on the
ring side and `_hash_string` on the node side. -/
theorem C3_validation_happens_per_hash_call (f : String)
    (h1 : f ≠ "sha256") (h2 : f ≠ "fnv1a") :
    ConsistentHashRing.init f =
      { hash_function := f, ring := [], nodes := [], hash_to_node := [] } ∧
    (∀ key, (ConsistentHashRing.init f).hash_key key =
      .error (.valueError ("Unsupported hash function: " ++ f))) ∧
    (∀ value, Node.hash_string value f =
      .error (.valueError ("Unsupported hash function: " ++ f))) := by
  refine ⟨rfl, ?_, ?_⟩ <;>
    intro s <;>
    simp [ConsistentHashRing.hash_key, Node.hash_string, ConsistentHashRing.init, h1, h2]

/-- C3 witness: instantiated at the name `"md5"` and the key `"k"`. -/
theorem C3_validation_happens_per_hash_call_witness :
    ("md5" ≠ "sha256") ∧ ("md5" ≠ "fnv1a") ∧
    (ConsistentHashRing.init "md5").hash_key "k" =
      .error (.valueError ("Unsupported hash function: " ++ "md5")) :=
  ⟨by decide, by decide,
    (C3_validation_happens_per_hash_call "md5" (by decide) (by decide)).2.1 "k"⟩

/-- C4: adding a node whose id is already registered raises the duplicate
`ValueError`, and the returned state is exactly the input state — the
registry, the sorted table and the hash-to-node dict are untouched,
because the validation is the first statement of `add_node`. -/
theorem C4_duplicate_add_rejected_unchanged (R : ConsistentHashRing) (n : Node)
    (h : pyContains R.nodes n.node_id = true) :
    R.add_node n =
      (R, .error (.valueError ("Node " ++ n.node_id ++ " already exists in the ring"))) :=
  add_node_dup h

/-- C4 witness: re-adding id `"a"` (even with a different replica count)
to a one-node ring is rejected with the ring unchanged. -/
theorem C4_duplicate_add_rejected_unchanged_witness :
    pyContains (((ConsistentHashRing.init "fnv1a").add_node ⟨"a", 1⟩).1).nodes "a" = true ∧
    (((ConsistentHashRing.init "fnv1a").add_node ⟨"a", 1⟩).1).add_node ⟨"a", 2⟩ =
      ((((ConsistentHashRing.init "fnv1a").add_node ⟨"a", 1⟩).1),
        .error (.valueError ("Node " ++ "a" ++ " already exists in the ring"))) :=
  ⟨rfl, C4_duplicate_add_rejected_unchanged _ ⟨"a", 2⟩ rfl⟩

/-- C6: the two "not found" conditions are ordinary optional results, not
exceptions: removing an unregistered id returns `None` and leaves the
state untouched, and looking up any key on an empty table returns `None`
before the key is even hashed. -/
theorem C6_not_found_conditions_are_optional (R : ConsistentHashRing)
    (node_id key : String) :
    (pyContains R.nodes node_id = false → R.remove_node node_id = (R, .ok none)) ∧
    (R.ring = [] → R.get_node_for_key key = .ok none) := by
  constructor
  · intro h
    exact remove_node_absent (pyGet_eq_none_iff.mpr h)
  · intro h
    simp [ConsistentHashRing.get_node_for_key, h]

/-- C6 witness: a fresh ring, absent id `"x"`, key `"k"`. -/
theorem C6_not_found_conditions_are_optional_witness :
    pyContains (ConsistentHashRing.init "sha256").nodes "x" = false ∧
    (ConsistentHashRing.init "sha256").remove_node "x" =
      (ConsistentHashRing.init "sha256", .ok none) ∧
    (ConsistentHashRing.init "sha256").ring = [] ∧
    (ConsistentHashRing.init "sha256").get_node_for_key "k" = .ok none :=
  ⟨rfl, (C6_not_found_conditions_are_optional _ "x" "k").1 rfl, rfl,
    (C6_not_found_conditions_are_optional _ "x" "k").2 rfl⟩

/-- C9: the node-side and ring-side hash implementations agree on every
string for both supported strategies, so node positions and key hashes
live in the same space. -/
theorem C9_node_and_ring_hash_agree (R : ConsistentHashRing) (s : String)
    (h : R.hash_function = "sha256" ∨ R.hash_function = "fnv1a") :
    Node.hash_string s R.hash_function = R.hash_key s := by
  rcases h with h | h <;>
    simp [Node.hash_string, ConsistentHashRing.hash_key, h, nodeFnv1a, ringFnv1a]

/-- C9 witness: the `"fnv1a"` strategy on the string `"a"`. -/
theorem C9_node_and_ring_hash_agree_witness :
    ((ConsistentHashRing.init "fnv1a").hash_function = "sha256" ∨
      (ConsistentHashRing.init "fnv1a").hash_function = "fnv1a") ∧
    Node.hash_string "a" (ConsistentHashRing.init "fnv1a").hash_function =
      (ConsistentHashRing.init "fnv1a").hash_key "a" :=
  ⟨Or.inr rfl,
    C9_node_and_ring_hash_agree (ConsistentHashRing.init "fnv1a") "a" (Or.inr rfl)⟩

/-- C1: at the failing input — ring `"fnv1a"`, one node `"n1"` with one
replica (position `fnv1a("n1-0")`), key `"n1-0"` whose hash equals that
position exactly — `get_node_for_key` raises `TypeError` instead of
returning the next position's owner: `bisect_right` compares the probe
`(key_hash, None)` with the entry `(key_hash, node)` and Python 3 cannot
order `None` against a `Node`. -/
theorem C1_tie_lookup_raises_typeerror :
    (((ConsistentHashRing.init "fnv1a").add_node ⟨"n1", 1⟩).1).get_node_for_key "n1-0" =
      .error .typeError := rfl

/-- C2: at the failing input — nodes `"gwzx"` and `"16cd"` whose single
replica positions collide under FNV-1a (`fnv1a("gwzx-0") =
fnv1a("16cd-0") = 2862820868`) — the second `add_node` raises `TypeError`
from `bisect.insort` comparing two `Node` objects, after having already
overwritten `hash_to_node` and registered the node: the add does not
complete and leaves partial state rather than last-write-wins. -/
theorem C2_collision_add_raises_typeerror :
    (((ConsistentHashRing.init "fnv1a").add_node ⟨"gwzx", 1⟩).1).add_node ⟨"16cd", 1⟩ =
      ({ hash_function := "fnv1a",
         ring := [(2862820868, ⟨"gwzx", 1⟩)],
         nodes := [("gwzx", ⟨"gwzx", 1⟩), ("16cd", ⟨"16cd", 1⟩)],
         hash_to_node := [(2862820868, ⟨"16cd", 1⟩)] }, .error .typeError) := rfl

set_option maxRecDepth 100000 in
set_option maxHeartbeats 8000000 in
/-- C5: refuted — the "positions unique" part of the claimed invariant
fails on a reachable state.  Adding the single node `"ojw1xdt"` with
11 replicas succeeds — FNV-1a collides on two of its replica strings,
`"ojw1xdt-5"` and `"ojw1xdt-10"` (both hash to 2018022038), and
`insort`'s probe tuple `(hash_value, node)` compares equal to the
already-present entry `(hash_value, node)` (same integer, same node by
`Node.__eq__`), so the binary search steps past it and inserts a second
entry instead of raising — leaving the position table with the position
2018022038 twice. -/
theorem C5_duplicate_positions_reachable :
    ∃ R : ConsistentHashRing, Reachable R ∧ ¬ (R.ring.map Prod.fst).Nodup := by
  refine ⟨(((ConsistentHashRing.init "fnv1a").add_node ⟨"ojw1xdt", 11⟩).1), ?_, ?_⟩
  · have e1 : (ConsistentHashRing.init "fnv1a").add_node ⟨"ojw1xdt", 11⟩ =
        ((((ConsistentHashRing.init "fnv1a").add_node ⟨"ojw1xdt", 11⟩).1), .ok ()) := rfl
    exact Reachable.add (Reachable.empty "fnv1a") e1
  · decide

/-- C7 counterexample: on the one-node `"fnv1a"` ring of node `"a"`, the
key `"a-0"` hashes exactly onto the node's position; the claimed owner
(the first position with value at least the hash, here node `"a"` itself)
is not returned — the lookup raises `TypeError` instead. -/
theorem C7_tie_lookup_returns_no_owner :
    (((ConsistentHashRing.init "fnv1a").add_node ⟨"a", 1⟩).1).get_node_for_key "a-0" =
      .error .typeError ∧
    (((ConsistentHashRing.init "fnv1a").add_node ⟨"a", 1⟩).1).get_node_for_key "a-0" ≠
      .ok (some ⟨"a", 1⟩) :=
  ⟨rfl, by intro hcon; cases hcon⟩

/-- C7 (amended): for every non-empty sorted ring and key whose hash
differs from every position value, `get_node_for_key` returns the owner
of the first position with value at least (equivalently, strictly above)
the hash, found by binary search, and wraps to the table's first position
when the hash exceeds every position — the circular-space behaviour.  The
excluded exact-tie case raises `TypeError` (see the C1 record). -/
theorem C7_lookup_upper_bound_wraps (R : ConsistentHashRing) (key : String)
    (key_hash : Nat)
    (hsorted : RingSorted R.ring) (hne : R.ring ≠ [])
    (hhash : R.hash_key key = .ok key_hash)
    (hfresh : ∀ e ∈ R.ring, e.1 ≠ key_hash) :
    R.get_node_for_key key = .ok (some (
      match R.ring.find? (fun e => decide (key_hash ≤ e.1)) with
      | some e => e.2
      | none => (R.ring.getD 0 (0, default)).2)) :=
  get_node_for_key_spec hsorted hne hhash hfresh

/-- C7 witness: the two-node `"fnv1a"` ring of `"a"` and `"b"` and the
key `"zzz"` (hash 2813343901, no tie). -/
theorem C7_lookup_upper_bound_wraps_witness :
    RingSorted ((((ConsistentHashRing.init "fnv1a").add_node ⟨"a", 1⟩).1.add_node
      ⟨"b", 1⟩).1).ring ∧
    ((((ConsistentHashRing.init "fnv1a").add_node ⟨"a", 1⟩).1.add_node
      ⟨"b", 1⟩).1).ring ≠ [] ∧
    ((((ConsistentHashRing.init "fnv1a").add_node ⟨"a", 1⟩).1.add_node
      ⟨"b", 1⟩).1).hash_key "zzz" = .ok 2813343901 ∧
    (∀ e ∈ ((((ConsistentHashRing.init "fnv1a").add_node ⟨"a", 1⟩).1.add_node
      ⟨"b", 1⟩).1).ring, e.1 ≠ 2813343901) ∧
    (((ConsistentHashRing.init "fnv1a").add_node ⟨"a", 1⟩).1.add_node
      ⟨"b", 1⟩).1.get_node_for_key "zzz" = .ok (some (
        match ((((ConsistentHashRing.init "fnv1a").add_node ⟨"a", 1⟩).1.add_node
          ⟨"b", 1⟩).1).ring.find? (fun e => decide (2813343901 ≤ e.1)) with
        | some e => e.2
        | none => (((((ConsistentHashRing.init "fnv1a").add_node ⟨"a", 1⟩).1.add_node
          ⟨"b", 1⟩).1).ring.getD 0 (0, default)).2)) :=
  ⟨by unfold RingSorted; decide, by decide, rfl, by decide,
    C7_lookup_upper_bound_wraps _ "zzz" 2813343901 (by unfold RingSorted; decide)
      (by decide) rfl (by decide)⟩

/-- C10: adding a node with a fresh id whose computed positions collide
neither with existing positions nor with each other, then removing that
id, returns the node and restores the position table, the node registry
and the hash-to-node map exactly. -/
theorem C10_add_then_remove_is_identity (R : ConsistentHashRing) (n : Node)
    (hs : List Nat)
    (hc : pyContains R.nodes n.node_id = false)
    (hhv : n.get_hash_values R.hash_function = .ok hs)
    (hnd : hs.Nodup)
    (hfresh_ring : ∀ h ∈ hs, ∀ e ∈ R.ring, e.1 ≠ h)
    (hfresh_h2n : ∀ h ∈ hs, pyContains R.hash_to_node h = false) :
    ∃ R', R.add_node n = (R', .ok ()) ∧ R'.remove_node n.node_id = (R, .ok (some n)) :=
  add_then_remove_roundtrip R n hs hc hhv hnd
    (fun h hh => ⟨hfresh_ring h hh, hfresh_h2n h hh⟩)

/-- C10 witness: adding `"b"` to the one-node `"fnv1a"` ring of `"a"` and
removing it again. -/
theorem C10_add_then_remove_is_identity_witness :
    pyContains (((ConsistentHashRing.init "fnv1a").add_node ⟨"a", 1⟩).1).nodes "b" = false ∧
    Node.get_hash_values ⟨"b", 1⟩
      (((ConsistentHashRing.init "fnv1a").add_node ⟨"a", 1⟩).1).hash_function =
      .ok [2908762168] ∧
    (∃ R', (((ConsistentHashRing.init "fnv1a").add_node ⟨"a", 1⟩).1).add_node ⟨"b", 1⟩ =
        (R', .ok ()) ∧
      R'.remove_node "b" =
        ((((ConsistentHashRing.init "fnv1a").add_node ⟨"a", 1⟩).1), .ok (some ⟨"b", 1⟩))) :=
  ⟨rfl, rfl,
    C10_add_then_remove_is_identity _ ⟨"b", 1⟩ [2908762168] rfl rfl (by simp)
      (by decide) (by decide)⟩

/-- C8: `get_moved_keys` returns exactly the keys whose (last-written)
owner in the reverse key-to-node mapping differs between the two
snapshots — a key present in only one snapshot has owner `none` on the
other side and therefore counts as moved — and comparing any snapshot
with itself yields the empty list. -/
theorem C8_moved_keys_are_exactly_owner_changes
    (old_distribution new_distribution d : List (String × List String))
    (key : String) :
    (key ∈ ConsistentHashRing.get_moved_keys old_distribution new_distribution ↔
      pyGet (buildKeyToNode old_distribution) key ≠
        pyGet (buildKeyToNode new_distribution) key) ∧
    ConsistentHashRing.get_moved_keys d d = [] := by
  have hdef : ∀ o n : List (String × List String),
      ConsistentHashRing.get_moved_keys o n =
        (((buildKeyToNode o).map Prod.fst ++
          (buildKeyToNode n).map Prod.fst).dedup).filter
          (fun k => pyGet (buildKeyToNode o) k != pyGet (buildKeyToNode n) k) :=
    fun o n => rfl
  constructor
  · rw [hdef]
    constructor
    · intro hmem
      have hp := List.of_mem_filter hmem
      exact bne_iff_ne.mp hp
    · intro hne
      apply List.mem_filter.mpr
      refine ⟨?_, bne_iff_ne.mpr hne⟩
      rw [List.mem_dedup, List.mem_append]
      cases hold : pyGet (buildKeyToNode old_distribution) key with
      | some v => exact Or.inl (mem_keys_of_pyGet_eq_some hold)
      | none =>
        cases hnew : pyGet (buildKeyToNode new_distribution) key with
        | some v => exact Or.inr (mem_keys_of_pyGet_eq_some hnew)
        | none => exact absurd (hold.trans hnew.symm) hne
  · rw [hdef]
    apply List.filter_eq_nil_iff.mpr
    intro a _
    simp
